import Mathlib

/-
Verification of the playlist/track synchronization core of the
dropbox-demo-tape repository (src/modules/utils.js), against its
natural-language specification.

JS strings are modelled as `List Char` (sequences of Unicode codepoints;
where UTF-16 code-unit semantics matter, as in `cleanHeader`, codepoints
are converted to their code units explicitly).  External capabilities
(the Expo filesystem, the document directory constant, the auth state)
are passed as parameters.
-/

namespace DemoTape

/-- Characters treated as whitespace by the JS String.prototype.trim builtin. -/
def jsWhitespace (c : Char) : Bool :=
  c ∈ [' ', '\t', '\n', '\r', '\x0b', '\x0c', '\u00a0', '\ufeff',
       '\u1680', '\u2000', '\u2001', '\u2002', '\u2003', '\u2004', '\u2005',
       '\u2006', '\u2007', '\u2008', '\u2009', '\u200a', '\u2028', '\u2029',
       '\u202f', '\u205f', '\u3000']

/-- Model of the JS String.prototype.split builtin for a one-character separator. -/
def splitOnChar (sep : Char) : List Char → List (List Char)
  | [] => [[]]
  | c :: cs =>
    match splitOnChar sep cs with
    | [] => [[]]
    | g :: gs => if c = sep then [] :: g :: gs else (c :: g) :: gs

/-- Model of the JS Array.prototype.join builtin. -/
def joinWith (sep : List Char) : List (List Char) → List Char
  | [] => []
  | [x] => x
  | x :: xs => x ++ sep ++ joinWith sep xs

/-- Model of the JS String.prototype.trim builtin: strip leading and trailing whitespace. -/
def jsTrim (s : List Char) : List Char :=
  List.rdropWhile jsWhitespace (List.dropWhile jsWhitespace s)

/-- createValidFileURI from src/modules/utils.js lines 91-99:
split/join replaces every hyphen, em-dash and space by an underscore,
then the result is trimmed. -/
def createValidFileURI (path : List Char) : List Char :=
  jsTrim (joinWith ['_'] (splitOnChar ' '
    (joinWith ['_'] (splitOnChar '—'
      (joinWith ['_'] (splitOnChar '-' path))))))

/-- getExtension from src/modules/utils.js line 147: last segment of the
name split on dots (JS split always yields a nonempty array, pop takes its last). -/
def getExtension (name : List Char) : List Char :=
  (splitOnChar '.' name).getLastD []

/-- The Track record fields used by src/modules/utils.js. -/
structure Track where
  id : List Char
  rev : List Char
  name : List Char
  downloadStatus : Option Nat
deriving DecidableEq

/-- getFileName from src/modules/utils.js lines 154-157 on a non-null track:
the template literal id ++ "_" ++ rev ++ "." ++ extension, normalized. -/
def getFileName (track : Track) : List Char :=
  createValidFileURI (track.id ++ '_' :: (track.rev ++ '.' :: getExtension track.name))

/-- getFileName including its null-track guard (track ? ... : null). -/
def getFileNameOpt : Option Track → Option (List Char)
  | some track => some (getFileName track)
  | none => none

/-- getFilePath from src/modules/utils.js lines 164-165; the external constant
FileSystem.documentDirectory is the parameter docDir. -/
def getFilePath (docDir : List Char) : Option Track → Option (List Char)
  | some track => some (docDir ++ getFileName track)
  | none => none

/-- The fixed audio-extension allow-list of isAudioFile (utils.js line 197). -/
def audioExtensions : List (List Char) :=
  ["mp3".data, "m4a".data, "ovw".data, "wav".data]

/-- isAudioFile from src/modules/utils.js lines 196-198. -/
def isAudioFile (name : List Char) : Bool :=
  decide (getExtension name ∈ audioExtensions)

/-- isPlaylist from src/modules/utils.js lines 238-240. -/
def isPlaylist (name : List Char) : Bool :=
  decide (getExtension name = "mix".data)

/-- Playlist metadata fields used by cleanFiles. -/
structure PlaylistMeta where
  name : List Char
deriving DecidableEq

/-- Playlist data fields used by cleanFiles. -/
structure PlaylistData where
  tracks : List Track
deriving DecidableEq

/-- The Playlist record shape read by cleanFiles (state.playlists.data elements). -/
structure Playlist where
  meta : PlaylistMeta
  data : PlaylistData
deriving DecidableEq

/-- cleanFiles from src/modules/utils.js lines 24-45, as the pure function from
the directory listing and the playlist state to the list of files it deletes:
the active files are accumulated by reduce, and the deleted (inactive) files are
those that classify as playlist or audio and are not active. -/
def cleanFiles (files : List (List Char)) (playlists : List Playlist) : List (List Char) :=
  let activeFiles := playlists.foldl
    (fun all p => all ++ (createValidFileURI p.meta.name :: p.data.tracks.map getFileName)) []
  files.filter (fun f => (isPlaylist f || isAudioFile f) && !(decide (f ∈ activeFiles)))

/-- Stated from the spec wording (section 4.5): the active set is the normalized
meta name of every tracked playlist plus the canonical file name of every one of
its tracks. -/
def activeSet (playlists : List Playlist) : List (List Char) :=
  playlists.flatMap (fun p => createValidFileURI p.meta.name :: p.data.tracks.map getFileName)

/-- Observable outcome of one purge pass of cleanFiles.  A deletion outcome or
the pass result is none when the operation succeeded, and some message when it
failed (the rejection reason of the corresponding promise). -/
structure PurgeRun where
  attempts : List (List Char × Option (List Char))
  logged : List (List Char)
  raisedToCaller : Option (List Char)
deriving DecidableEq

/-- The effectful tail of cleanFiles (utils.js lines 41-44): deleteAsync is
invoked on docPath + f for every inactive file by a synchronous map, so every
candidate is attempted no matter how the individual deletions fare; the promises
are not awaited and there is no catch, so cleanFiles itself logs nothing and
resolves normally for its caller.  The filesystem deleteAsync capability is the
parameter deleteFile, reporting per-path failure (some message) or success (none). -/
def cleanFilesEff (deleteFile : List Char → Option (List Char))
    (docPath : List Char) (files : List (List Char)) (playlists : List Playlist) : PurgeRun :=
  let inactiveFiles := cleanFiles files playlists
  { attempts := inactiveFiles.map (fun f => (docPath ++ f, deleteFile (docPath ++ f)))
  , logged := []
  , raisedToCaller := none }

/-- isDownloaded from src/modules/utils.js lines 204-210; the filesystem
getInfoAsync existence capability is the parameter fsExists (it receives the
possibly-null path and reports the exists flag of the returned info). -/
def isDownloaded (fsExists : Option (List Char) → Bool) (docDir : List Char)
    (track : Track) : Track :=
  let info := fsExists (getFilePath docDir (some track))
  { track with downloadStatus := if info then some 100 else none }

/-- The left curly brace character (written via its code to keep it out of literals). -/
def lbrace : Char := Char.ofNat 123

/-- The right curly brace character. -/
def rbrace : Char := Char.ofNat 125

/-- Lowercase hexadecimal digit, as produced by the JS Number.prototype.toString with base 16. -/
def hexDigit (n : Nat) : Char :=
  "0123456789abcdef".data.getD n '0'

/-- The four-hex-digit form built by cleanHeader: the expression
(＇000＇ + code.toString(16)).slice(-4), i.e. the low sixteen bits of the code
in lowercase hexadecimal, zero-padded to width four. -/
def hex4 (u : Nat) : List Char :=
  [hexDigit (u / 4096 % 16), hexDigit (u / 256 % 16), hexDigit (u / 16 % 16), hexDigit (u % 16)]

/-- Per-character escaping of the JSON.stringify builtin for string contents. -/
def jsonEscapeChar (c : Char) : List Char :=
  if c = '"' then ['\\', '"']
  else if c = '\\' then ['\\', '\\']
  else if c = '\x08' then ['\\', 'b']
  else if c = '\t' then ['\\', 't']
  else if c = '\n' then ['\\', 'n']
  else if c = '\x0c' then ['\\', 'f']
  else if c = '\r' then ['\\', 'r']
  else if c.toNat < 32 then '\\' :: 'u' :: hex4 c.toNat
  else [c]

/-- JSON.stringify of a string value: quoted, with contents escaped. -/
def jsonQuote (str : List Char) : List Char :=
  '"' :: str.flatMap jsonEscapeChar ++ ['"']

/-- JSON.stringify of the one-field object whose path field holds remote. -/
def jsonStringifyPathObj (remote : List Char) : List Char :=
  lbrace :: (jsonQuote "path".data ++ ':' :: jsonQuote remote) ++ [rbrace]

/-- The UTF-16 code units of a codepoint (JS strings are code-unit sequences;
charCodeAt and regexes see astral codepoints as surrogate pairs). -/
def utf16Units (c : Char) : List Nat :=
  if c.toNat < 65536 then [c.toNat]
  else
    [55296 + (c.toNat - 65536) / 1024, 56320 + (c.toNat - 65536) % 1024]

/-- The replacement pass of cleanHeader on one UTF-16 code unit: the regex
[\u007f-\uffff] matches every unit from 127 up, and the match is replaced by
backslash-u plus four hex digits of the unit.  A unit below 127 is ASCII and is
kept (such a unit is always a valid codepoint). -/
def escapeUnit (u : Nat) : List Char :=
  if 127 <= u && u <= 65535 then '\\' :: 'u' :: hex4 u else [Char.ofNat u]

/-- cleanHeader from src/modules/utils.js lines 52-56: JSON.stringify of the
header object, then every UTF-16 code unit in [0x7f, 0xffff] replaced by its
four-hex-digit backslash-u escape.  Specialized to the one call site, whose
header object is the path record. -/
def cleanHeader (remote : List Char) : List Char :=
  (jsonStringifyPathObj remote).flatMap (fun c => (utf16Units c).flatMap escapeUnit)

/-- The Dropbox download endpoint constant of utils.js line 8. -/
def dropBoxDownloadUrl : List Char :=
  "https://content.dropboxapi.com/2/files/download".data

/-- The request produced by createDownloader: url, destination, and headers. -/
structure DownloaderRequest where
  url : List Char
  localPath : List Char
  authorization : List Char
  dropboxApiArg : List Char
deriving DecidableEq

/-- createDownloader from src/modules/utils.js lines 66-84, as the request it
passes to FileSystem.createDownloadResumable; the document directory and the
access token read from state are parameters. -/
def createDownloader (docDir accessToken local_ remote : List Char) : DownloaderRequest :=
  { url := dropBoxDownloadUrl
  , localPath := docDir ++ createValidFileURI local_
  , authorization := "Bearer ".data ++ accessToken
  , dropboxApiArg := cleanHeader remote }

/-- Stated from the claim wording: the JSON encoding of the path object in which
every codepoint strictly above U+007F is replaced by a backslash-u escape of
exactly four hex digits. -/
def headerEscapeAbove (remote : List Char) : List Char :=
  (jsonStringifyPathObj remote).flatMap
    (fun c => if 127 < c.toNat then '\\' :: 'u' :: hex4 c.toNat else [c])

/-- Stated from the amended claim wording: as headerEscapeAbove, but every
codepoint at or above U+007F is escaped. -/
def headerEscapeAtOrAbove (remote : List Char) : List Char :=
  (jsonStringifyPathObj remote).flatMap
    (fun c => if 127 <= c.toNat then '\\' :: 'u' :: hex4 c.toNat else [c])

/-- The sharing_info sub-object of a Dropbox entry. -/
structure SharingInfo where
  modified_by : Option (List Char)
deriving DecidableEq

/-- The Dropbox entry fields used by transformFile and getModifiedBy; the
tag field models the ＇.tag＇ property, and optional fields are Option. -/
structure DbxEntry where
  tag : List Char
  name : List Char
  path_display : List Char
  sharing_info : Option SharingInfo
deriving DecidableEq

/-- getModifiedBy from src/modules/utils.js line 181: the dot-prop get of
sharing_info.modified_by, undefined (none) when either level is missing. -/
def getModifiedBy (entry : DbxEntry) : Option (List Char) :=
  entry.sharing_info.bind (fun s => s.modified_by)

/-- JS Boolean coercion on an optional string: undefined and the empty string
are falsy, every other string is truthy. -/
def jsBoolean : Option (List Char) → Bool
  | none => false
  | some str => !str.isEmpty

/-- Model of the spread of new Set(list): first-occurrence deduplication. -/
def setDedup {α : Type} [DecidableEq α] : List α → List α
  | [] => []
  | x :: xs => x :: setDedup (xs.filter (fun y => y ≠ x))
termination_by l => l.length
decreasing_by
  simp only [List.length_cons]
  exact Nat.lt_succ_of_le (List.length_filter_le _ _)

/-- getModifiedUsersFromEntries from src/modules/utils.js lines 188-189:
spread of the Set of mapped values, then filter(Boolean). -/
def getModifiedUsersFromEntries (entries : List DbxEntry) : List (Option (List Char)) :=
  (setDedup (entries.map getModifiedBy)).filter jsBoolean

/-- The record shape produced by transformFile. -/
structure TransformedFile where
  tag : List Char
  name : List Char
  path_display : List Char
  sharing_info : Option SharingInfo
  isAudioFile : Bool
  isFolder : Bool
  isPlaylist : Bool
  path : List Char
  type : List Char
  user : Option (List Char)
deriving DecidableEq

/-- transformFile from src/modules/utils.js lines 261-269: the entry spread
plus the derived classification booleans and renamed fields. -/
def transformFile (file : DbxEntry) : TransformedFile :=
  { tag := file.tag
  , name := file.name
  , path_display := file.path_display
  , sharing_info := file.sharing_info
  , isAudioFile := isAudioFile file.name
  , isFolder := decide (file.tag = "folder".data)
  , isPlaylist := isPlaylist file.name
  , path := file.path_display
  , type := file.tag
  , user := getModifiedBy file }

/-- Modelled from the spec: the per-track download orchestration (spec sections
4.4.5, 5 and 9) is not under src/ -- only its helper createDownloader is -- so
the session bookkeeping is taken from the spec words: each download attempt is
tagged with a fresh session identity, starting a new session cancels the prior
active one first, and a progress update is applied only after a session
identity check against the current session. -/
structure TrackDownloads where
  nextId : Nat
  active : List Nat
  cancelled : List Nat
  downloadStatus : Option Nat
deriving DecidableEq

/-- Modelled from the spec: starting a download session for a track cancels
every session active for that track, then registers the fresh session as the
only active one. -/
def startSession (s : TrackDownloads) : TrackDownloads :=
  { nextId := s.nextId + 1
  , active := [s.nextId]
  , cancelled := s.active ++ s.cancelled
  , downloadStatus := s.downloadStatus }

/-- Modelled from the spec: a progress update carries the identity of the
session it came from and is applied only when that session is still the
active one. -/
def applyProgress (s : TrackDownloads) (session : Nat) (pct : Nat) : TrackDownloads :=
  if session ∈ s.active then { s with downloadStatus := some pct } else s

/-- Stated from the spec wording (section 4.1): the character-level separator
normalization, hyphen, em-dash and space to underscore. -/
def normChar (c : Char) : Char :=
  if c = '-' ∨ c = '—' ∨ c = ' ' then '_' else c

/-- Ids and revisions built only from ordinary characters: no underscore, no
dot, none of the normalized separator characters, and no whitespace. -/
def cleanName (l : List Char) : Prop :=
  ∀ c ∈ l, c ≠ '_' ∧ c ≠ '.' ∧ c ≠ '-' ∧ c ≠ '—' ∧ c ≠ ' ' ∧ jsWhitespace c = false

instance (l : List Char) : Decidable (cleanName l) := by
  unfold cleanName; infer_instance

/-! Lemmas about the string-builtin models. -/

theorem splitOnChar_ne_nil (sep : Char) (l : List Char) : splitOnChar sep l ≠ [] := by
  cases l with
  | nil => simp [splitOnChar]
  | cons c cs =>
    simp only [splitOnChar]
    cases h : splitOnChar sep cs with
    | nil => simp
    | cons g gs =>
      by_cases hc : c = sep <;> simp [hc]

theorem joinWith_splitOnChar (u sep : Char) (l : List Char) :
    joinWith [u] (splitOnChar sep l) = l.map (fun c => if c = sep then u else c) := by
  induction l with
  | nil => rfl
  | cons c cs ih =>
    simp only [splitOnChar]
    cases h : splitOnChar sep cs with
    | nil => exact absurd h (splitOnChar_ne_nil sep cs)
    | cons g gs =>
      rw [h] at ih
      by_cases hc : c = sep
      · subst hc
        simp only [if_pos rfl, List.map_cons, if_pos rfl]
        cases gs with
        | nil => simpa [joinWith] using ih
        | cons g2 gs2 => simpa [joinWith] using ih
      · simp only [if_neg hc, List.map_cons, if_neg hc]
        cases gs with
        | nil => simpa [joinWith] using ih
        | cons g2 gs2 => simpa [joinWith, List.append_assoc] using ih

theorem not_mem_of_mem_splitOnChar (sep : Char) (l seg : List Char)
    (hseg : seg ∈ splitOnChar sep l) : sep ∉ seg := by
  induction l generalizing seg with
  | nil =>
    simp only [splitOnChar, List.mem_singleton] at hseg
    subst hseg; simp
  | cons c cs ih =>
    simp only [splitOnChar] at hseg
    cases h : splitOnChar sep cs with
    | nil => exact absurd h (splitOnChar_ne_nil sep cs)
    | cons g gs =>
      rw [h] at hseg
      have hseg2 : seg ∈ (if c = sep then [] :: g :: gs else (c :: g) :: gs) := hseg
      by_cases hc : c = sep
      · rw [if_pos hc] at hseg2
        simp only [List.mem_cons] at hseg2
        rcases hseg2 with h1 | h1 | h1
        · rw [h1]; simp
        · exact h1 ▸ ih g (h ▸ List.mem_cons_self g gs)
        · exact ih seg (h ▸ List.mem_cons_of_mem g h1)
      · rw [if_neg hc] at hseg2
        simp only [List.mem_cons] at hseg2
        rcases hseg2 with h1 | h1
        · rw [h1]
          intro hmem
          rcases List.mem_cons.mp hmem with h2 | h2
          · exact hc h2.symm
          · exact ih g (h ▸ List.mem_cons_self g gs) h2
        · exact ih seg (h ▸ List.mem_cons_of_mem g h1)

theorem getExtension_mem (name : List Char) :
    getExtension name ∈ splitOnChar '.' name := by
  unfold getExtension
  rw [List.getLastD_eq_getLast?,
    List.getLast?_eq_getLast (splitOnChar '.' name) (splitOnChar_ne_nil '.' name)]
  exact List.getLast_mem (splitOnChar_ne_nil '.' name)

theorem dot_not_mem_getExtension (name : List Char) : '.' ∉ getExtension name :=
  not_mem_of_mem_splitOnChar '.' name (getExtension name) (getExtension_mem name)

theorem dropWhile_eq_self_of_head (p : Char → Bool) (l : List Char)
    (h : ∀ c, l.head? = some c → p c = false) : List.dropWhile p l = l := by
  cases l with
  | nil => rfl
  | cons c cs => rw [List.dropWhile_cons, h c rfl]; simp

theorem head?_dropWhile_false (p : Char → Bool) (l : List Char) (c : Char)
    (h : (List.dropWhile p l).head? = some c) : p c = false := by
  have hnot := List.head?_dropWhile_not p l
  rw [h] at hnot
  exact hnot

theorem getLast?_dropWhile (p : Char → Bool) (l : List Char)
    (h : List.dropWhile p l ≠ []) : (List.dropWhile p l).getLast? = l.getLast? := by
  obtain ⟨t, ht⟩ := List.dropWhile_suffix (l := l) p
  conv_rhs => rw [← ht]
  rw [List.getLast?_append_of_ne_nil t h]

theorem jsTrim_idem (s : List Char) : jsTrim (jsTrim s) = jsTrim s := by
  unfold jsTrim
  have h1 : List.dropWhile jsWhitespace
      (List.rdropWhile jsWhitespace (List.dropWhile jsWhitespace s)) =
      List.rdropWhile jsWhitespace (List.dropWhile jsWhitespace s) := by
    apply dropWhile_eq_self_of_head
    intro c hc
    have hc2 : (List.dropWhile jsWhitespace
        (List.dropWhile jsWhitespace s).reverse).reverse.head? = some c := hc
    rw [List.head?_reverse] at hc2
    have hne : List.dropWhile jsWhitespace (List.dropWhile jsWhitespace s).reverse ≠ [] := by
      intro h0; rw [h0] at hc2; simp at hc2
    rw [getLast?_dropWhile jsWhitespace _ hne, List.getLast?_reverse] at hc2
    exact head?_dropWhile_false jsWhitespace s c hc2
  rw [h1, List.rdropWhile_idempotent]

theorem mem_jsTrim (s : List Char) (c : Char) (h : c ∈ jsTrim s) : c ∈ s := by
  unfold jsTrim at h
  have h1 : c ∈ (List.dropWhile jsWhitespace
      (List.dropWhile jsWhitespace s).reverse).reverse := h
  rw [List.mem_reverse] at h1
  have h2 := (List.dropWhile_suffix (l := (List.dropWhile jsWhitespace s).reverse)
    jsWhitespace).sublist.subset h1
  rw [List.mem_reverse] at h2
  exact (List.dropWhile_suffix (l := s) jsWhitespace).sublist.subset h2

theorem normChar_fix (c : Char) (h : c ≠ '-' ∧ c ≠ '—' ∧ c ≠ ' ') : normChar c = c := by
  unfold normChar
  rw [if_neg]
  rintro (h1 | h1 | h1)
  · exact h.1 h1
  · exact h.2.1 h1
  · exact h.2.2 h1

theorem normChar_image (a : Char) : normChar a ≠ '-' ∧ normChar a ≠ '—' ∧ normChar a ≠ ' ' := by
  unfold normChar
  by_cases h : a = '-' ∨ a = '—' ∨ a = ' '
  · rw [if_pos h]; exact ⟨by decide, by decide, by decide⟩
  · rw [if_neg h]; push_neg at h; exact h

theorem createValidFileURI_eq (s : List Char) :
    createValidFileURI s = jsTrim (s.map normChar) := by
  unfold createValidFileURI
  rw [joinWith_splitOnChar, joinWith_splitOnChar, joinWith_splitOnChar,
    List.map_map, List.map_map]
  congr 1
  apply List.map_congr_left
  intro c _
  simp only [Function.comp_apply]
  by_cases h1 : c = '-'
  · subst h1; decide
  · by_cases h2 : c = '—'
    · subst h2; decide
    · by_cases h3 : c = ' '
      · subst h3; decide
      · simp [h1, h2, h3, normChar]

theorem createValidFileURI_idem (s : List Char) :
    createValidFileURI (createValidFileURI s) = createValidFileURI s := by
  rw [createValidFileURI_eq, createValidFileURI_eq]
  have hfix : ∀ c ∈ jsTrim (s.map normChar), normChar c = id c := by
    intro c hc
    obtain ⟨a, _, ha⟩ := List.mem_map.mp (mem_jsTrim _ c hc)
    rw [← ha]
    exact normChar_fix (normChar a) (normChar_image a)
  rw [List.map_congr_left hfix, List.map_id, jsTrim_idem]

theorem append_single_inj (sep : Char) (b d : List Char) : ∀ a c : List Char,
    sep ∉ a → sep ∉ c → a ++ sep :: b = c ++ sep :: d → a = c ∧ b = d := by
  intro a
  induction a with
  | nil =>
    intro c ha hc h
    cases c with
    | nil => simpa using h
    | cons x xs =>
      rw [List.nil_append, List.cons_append] at h
      injection h with h1 h2
      exact absurd (by rw [h1]; exact List.mem_cons_self x xs) hc
  | cons y ys ih =>
    intro c ha hc h
    cases c with
    | nil =>
      rw [List.cons_append, List.nil_append] at h
      injection h with h1 h2
      exact absurd (by rw [← h1]; exact List.mem_cons_self y ys) ha
    | cons x xs =>
      rw [List.cons_append, List.cons_append] at h
      injection h with h1 h2
      obtain ⟨h3, h4⟩ := ih xs (fun hm => ha (List.mem_cons_of_mem y hm))
        (fun hm => hc (List.mem_cons_of_mem x hm)) h2
      exact ⟨by rw [h1, h3], h4⟩

theorem rdropWhile_append_cons (p : Char → Bool) (a e : List Char) (c : Char)
    (hc : p c = false) :
    List.rdropWhile p (a ++ c :: e) = a ++ c :: List.rdropWhile p e := by
  unfold List.rdropWhile
  rw [List.reverse_append, List.reverse_cons, List.append_assoc, List.dropWhile_append]
  by_cases he : (List.dropWhile p e.reverse).isEmpty
  · rw [if_pos he]
    rw [List.isEmpty_iff] at he
    rw [he, List.singleton_append, List.dropWhile_cons, hc]
    simp
  · rw [if_neg he]
    simp

theorem getFileName_normal (t : Track) (hid : cleanName t.id) (hrev : cleanName t.rev) :
    getFileName t = t.id ++ '_' :: (t.rev ++ '.' ::
      List.rdropWhile jsWhitespace ((getExtension t.name).map normChar)) := by
  unfold getFileName
  rw [createValidFileURI_eq]
  have hmapid : t.id.map normChar = t.id := by
    have : ∀ c ∈ t.id, normChar c = id c := by
      intro c hcm
      exact normChar_fix c ⟨(hid c hcm).2.2.1, (hid c hcm).2.2.2.1, (hid c hcm).2.2.2.2.1⟩
    rw [List.map_congr_left this, List.map_id]
  have hmaprev : t.rev.map normChar = t.rev := by
    have : ∀ c ∈ t.rev, normChar c = id c := by
      intro c hcm
      exact normChar_fix c ⟨(hrev c hcm).2.2.1, (hrev c hcm).2.2.2.1, (hrev c hcm).2.2.2.2.1⟩
    rw [List.map_congr_left this, List.map_id]
  have hmap : (t.id ++ '_' :: (t.rev ++ '.' :: getExtension t.name)).map normChar =
      t.id ++ '_' :: (t.rev ++ '.' :: (getExtension t.name).map normChar) := by
    rw [List.map_append, List.map_cons, List.map_append, List.map_cons,
      hmapid, hmaprev, show normChar '_' = '_' from by decide,
      show normChar '.' = '.' from by decide]
  rw [hmap]
  unfold jsTrim
  have hdrop : List.dropWhile jsWhitespace
      (t.id ++ '_' :: (t.rev ++ '.' :: (getExtension t.name).map normChar)) =
      t.id ++ '_' :: (t.rev ++ '.' :: (getExtension t.name).map normChar) := by
    apply dropWhile_eq_self_of_head
    intro c hc
    cases hid2 : t.id with
    | nil =>
      rw [hid2, List.nil_append, List.head?_cons, Option.some.injEq] at hc
      rw [← hc]; decide
    | cons x xs =>
      rw [hid2, List.cons_append, List.head?_cons, Option.some.injEq] at hc
      rw [← hc]
      exact (hid x (by rw [hid2]; exact List.mem_cons_self x xs)).2.2.2.2.2
  rw [hdrop]
  have hassoc : t.id ++ '_' :: (t.rev ++ '.' :: (getExtension t.name).map normChar) =
      (t.id ++ '_' :: t.rev) ++ '.' :: (getExtension t.name).map normChar := by
    simp
  rw [hassoc, rdropWhile_append_cons jsWhitespace _ _ '.' (by decide)]
  simp

theorem getFileName_inj (t1 t2 : Track)
    (h1i : cleanName t1.id) (h1r : cleanName t1.rev)
    (h2i : cleanName t2.id) (h2r : cleanName t2.rev)
    (hne : (t1.id, t1.rev) ≠ (t2.id, t2.rev)) :
    getFileName t1 ≠ getFileName t2 := by
  intro heq
  rw [getFileName_normal t1 h1i h1r, getFileName_normal t2 h2i h2r] at heq
  obtain ⟨hid, hrest⟩ := append_single_inj '_' _ _ t1.id t2.id
    (fun hm => (h1i _ hm).1 rfl) (fun hm => (h2i _ hm).1 rfl) heq
  obtain ⟨hrev, _⟩ := append_single_inj '.' _ _ t1.rev t2.rev
    (fun hm => (h1r _ hm).2.1 rfl) (fun hm => (h2r _ hm).2.1 rfl) hrest
  exact hne (by rw [hid, hrev])

theorem activeFoldl_eq (playlists : List Playlist) (acc : List (List Char)) :
    playlists.foldl
      (fun all p => all ++ (createValidFileURI p.meta.name :: p.data.tracks.map getFileName))
      acc = acc ++ activeSet playlists := by
  induction playlists generalizing acc with
  | nil => simp [activeSet]
  | cons p ps ih =>
    rw [List.foldl_cons, ih]
    simp [activeSet]

theorem mem_cleanFiles_iff (files : List (List Char)) (playlists : List Playlist)
    (f : List Char) :
    f ∈ cleanFiles files playlists ↔
      f ∈ files ∧ (isPlaylist f = true ∨ isAudioFile f = true) ∧ f ∉ activeSet playlists := by
  simp only [cleanFiles, activeFoldl_eq, List.nil_append, List.mem_filter,
    Bool.and_eq_true, Bool.or_eq_true, Bool.not_eq_true', decide_eq_false_iff_not]

theorem mem_setDedup {α : Type} [DecidableEq α] (l : List α) (a : α) :
    a ∈ setDedup l ↔ a ∈ l := by
  induction l using setDedup.induct with
  | case1 => simp [setDedup]
  | case2 x xs ih =>
    rw [setDedup]
    by_cases hax : a = x
    · subst hax; simp
    · simp only [List.mem_cons, hax, false_or]
      rw [ih]
      simp [List.mem_filter, hax]

theorem nodup_setDedup {α : Type} [DecidableEq α] (l : List α) : (setDedup l).Nodup := by
  induction l using setDedup.induct with
  | case1 => simp [setDedup]
  | case2 x xs ih =>
    rw [setDedup]
    refine List.nodup_cons.mpr ⟨?_, ih⟩
    intro hmem
    have := (mem_setDedup _ x).mp hmem
    rw [List.mem_filter] at this
    simpa using this.2

theorem hexDigit_lt (n : Nat) : (hexDigit n).toNat < 128 := by
  unfold hexDigit
  rcases Nat.lt_or_ge n 16 with h | h
  · interval_cases n <;> decide
  · rw [List.getD_eq_default]
    · decide
    · simpa using h

theorem mem_hex4_lt (u : Nat) (c : Char) (hc : c ∈ hex4 u) : c.toNat < 65536 := by
  simp only [hex4, List.mem_cons, List.not_mem_nil, or_false] at hc
  rcases hc with h | h | h | h <;>
    exact h ▸ Nat.lt_trans (hexDigit_lt _) (by norm_num)

theorem jsonEscapeChar_bmp (a c : Char) (ha : a.toNat < 65536)
    (hc : c ∈ jsonEscapeChar a) : c.toNat < 65536 := by
  unfold jsonEscapeChar at hc
  repeat' split at hc
  all_goals
    first
    | · simp only [List.mem_cons, List.not_mem_nil, or_false] at hc
        rcases hc with h | h <;> (rw [h]; decide)
    | · simp only [List.mem_cons] at hc
        rcases hc with h | h | h
        · rw [h]; decide
        · rw [h]; decide
        · exact mem_hex4_lt _ _ h
    | · simp only [List.mem_cons, List.not_mem_nil, or_false] at hc
        rw [hc]; exact ha

theorem mem_jsonQuote_bmp (str : List Char) (hstr : ∀ a ∈ str, a.toNat < 65536)
    (c : Char) (hc : c ∈ jsonQuote str) : c.toNat < 65536 := by
  unfold jsonQuote at hc
  rcases List.mem_cons.mp hc with h | h
  · rw [h]; decide
  rcases List.mem_append.mp h with h | h
  · obtain ⟨a, ha, hmem⟩ := List.mem_flatMap.mp h
    exact jsonEscapeChar_bmp a c (hstr a ha) hmem
  · rcases List.mem_cons.mp h with h | h
    · rw [h]; decide
    · simp at h

theorem jsonStringifyPathObj_bmp (remote : List Char)
    (hbmp : ∀ a ∈ remote, a.toNat < 65536) (c : Char)
    (hc : c ∈ jsonStringifyPathObj remote) : c.toNat < 65536 := by
  unfold jsonStringifyPathObj at hc
  rcases List.mem_cons.mp hc with h | h
  · rw [h]; decide
  rcases List.mem_append.mp h with h | h
  · rcases List.mem_append.mp h with h | h
    · exact mem_jsonQuote_bmp "path".data (by decide) c h
    · rcases List.mem_cons.mp h with h | h
      · rw [h]; decide
      · exact mem_jsonQuote_bmp remote hbmp c h
  · rcases List.mem_cons.mp h with h | h
    · rw [h]; decide
    · simp at h

theorem utf16_escape_bmp (c : Char) (h : c.toNat < 65536) :
    (utf16Units c).flatMap escapeUnit =
      if 127 <= c.toNat then '\\' :: 'u' :: hex4 c.toNat else [c] := by
  unfold utf16Units
  rw [if_pos h]
  simp only [List.flatMap_cons, List.flatMap_nil, List.append_nil]
  unfold escapeUnit
  by_cases h7 : 127 <= c.toNat
  · rw [if_pos (by simp [h7, Nat.lt_succ_iff.mp h]), if_pos h7]
  · rw [if_neg (by simp [h7]), if_neg h7, Char.ofNat_toNat]

theorem cleanHeader_eq_atOrAbove (remote : List Char)
    (hbmp : ∀ a ∈ remote, a.toNat < 65536) :
    cleanHeader remote = headerEscapeAtOrAbove remote := by
  unfold cleanHeader headerEscapeAtOrAbove
  apply List.flatMap_congr
  intro c hc
  exact utf16_escape_bmp c (jsonStringifyPathObj_bmp remote hbmp c hc)

/-! The claim theorems. -/

/-- C1: purge safety.  A local file whose name classifies as neither a playlist
file nor an audio file (extension not mix and not in the audio allow-list) is
never deleted by the cleanFiles pass, regardless of the playlist state and
hence regardless of the contents of the active set. -/
theorem c1_purge_safety (files : List (List Char)) (playlists : List Playlist)
    (f : List Char) (hp : isPlaylist f = false) (ha : isAudioFile f = false) :
    f ∉ cleanFiles files playlists := by
  intro hmem
  rcases ((mem_cleanFiles_iff files playlists f).mp hmem).2.1 with h | h
  · rw [hp] at h; exact Bool.false_ne_true h
  · rw [ha] at h; exact Bool.false_ne_true h

/-- Witness for C1 at the concrete unrelated file stray.txt. -/
theorem c1_purge_safety_witness :
    isPlaylist "stray.txt".data = false ∧ isAudioFile "stray.txt".data = false ∧
      "stray.txt".data ∉
        cleanFiles ["p1.mix".data, "abc_3.mp3".data, "stray.txt".data] [] :=
  ⟨by decide, by decide,
    c1_purge_safety ["p1.mix".data, "abc_3.mp3".data, "stray.txt".data] []
      "stray.txt".data (by decide) (by decide)⟩

/-- C2: purge candidate set.  cleanFiles deletes exactly the local files that
classify as playlist or audio and whose names are not in the active set (the
normalized meta name of every playlist plus the canonical file name of every
track); on the spec examples, with active set containing p1.mix and abc_3.mp3
nothing is deleted, and with no playlists exactly p1.mix and abc_3.mp3 are
deleted while stray.txt remains. -/
theorem c2_purge_candidates (files : List (List Char)) (playlists : List Playlist) :
    (∀ f, f ∈ cleanFiles files playlists ↔
      f ∈ files ∧ (isPlaylist f = true ∨ isAudioFile f = true) ∧
        f ∉ activeSet playlists) ∧
    cleanFiles ["p1.mix".data, "abc_3.mp3".data, "stray.txt".data]
      [Playlist.mk (PlaylistMeta.mk "p1.mix".data)
        (PlaylistData.mk [Track.mk "abc".data "3".data "song.mp3".data none])] = [] ∧
    cleanFiles ["p1.mix".data, "abc_3.mp3".data, "stray.txt".data] [] =
      ["p1.mix".data, "abc_3.mp3".data] :=
  ⟨fun f => mem_cleanFiles_iff files playlists f, by decide, by decide⟩

/-- C3 counterexample: two tracks with distinct (id, rev) pairs but equal
canonical file names, because the underscore joining id and rev is also a
legal character inside them: (a, b_c) and (a_b, c) both map to a_b_c.mp3. -/
theorem c3_counterexample :
    ((Track.mk "a".data "b_c".data "x.mp3".data none).id,
      (Track.mk "a".data "b_c".data "x.mp3".data none).rev) ≠
      ((Track.mk "a_b".data "c".data "x.mp3".data none).id,
        (Track.mk "a_b".data "c".data "x.mp3".data none).rev) ∧
    getFileName (Track.mk "a".data "b_c".data "x.mp3".data none) =
      getFileName (Track.mk "a_b".data "c".data "x.mp3".data none) := by
  decide

/-- C3 amended: getFileName is deterministic (a pure function of the track),
the example track (abc, 3, My Song.mp3) yields abc_3.mp3, and canonical names
of two tracks differ whenever their (id, rev) pairs differ, provided ids and
revisions avoid underscore, dot, the normalized separator characters and
whitespace. -/
theorem c3_amended (t1 t2 : Track)
    (h1i : cleanName t1.id) (h1r : cleanName t1.rev)
    (h2i : cleanName t2.id) (h2r : cleanName t2.rev)
    (hne : (t1.id, t1.rev) ≠ (t2.id, t2.rev)) :
    getFileName t1 ≠ getFileName t2 ∧
    getFileName t1 = getFileName t1 ∧
    getFileName (Track.mk "abc".data "3".data "My Song.mp3".data none) =
      "abc_3.mp3".data :=
  ⟨getFileName_inj t1 t2 h1i h1r h2i h2r hne, rfl, by decide⟩

/-- Witness for C3 amended at two concrete clean tracks. -/
theorem c3_amended_witness :
    getFileName (Track.mk "a".data "1".data "x.mp3".data none) ≠
      getFileName (Track.mk "b".data "1".data "x.mp3".data none) :=
  (c3_amended (Track.mk "a".data "1".data "x.mp3".data none)
    (Track.mk "b".data "1".data "x.mp3".data none)
    (by decide) (by decide) (by decide) (by decide) (by decide)).1

/-- C4: supersession (spec-modelled, see TrackDownloads): after starting a new
session, at most one session is active; every previously active session is
cancelled by the start; a progress update from a superseded session leaves the
state, and in particular downloadStatus, unchanged; and the session-identity
invariant is preserved. -/
theorem c4_supersession (s : TrackDownloads) (sid pct : Nat)
    (hinv : ∀ i ∈ s.active, i < s.nextId) (hsid : sid ∈ s.active) :
    (startSession s).active.length ≤ 1 ∧
    sid ∈ (startSession s).cancelled ∧
    applyProgress (startSession s) sid pct = startSession s ∧
    (∀ i ∈ (startSession s).active, i < (startSession s).nextId) := by
  refine ⟨by simp [startSession], ?_, ?_, ?_⟩
  · simp only [startSession, List.mem_append]
    exact Or.inl hsid
  · have hne : sid ∉ (startSession s).active := by
      simp only [startSession, List.mem_singleton]
      exact Nat.ne_of_lt (hinv sid hsid)
    unfold applyProgress
    rw [if_neg hne]
  · simp [startSession]

/-- Witness for C4 at a concrete state with one active session. -/
theorem c4_supersession_witness :
    applyProgress (startSession (TrackDownloads.mk 1 [0] [] none)) 0 50 =
      startSession (TrackDownloads.mk 1 [0] [] none) :=
  (c4_supersession (TrackDownloads.mk 1 [0] [] none) 0 50
    (by decide) (by decide)).2.2.1

/-- C5: isDownloaded postcondition and frame.  The returned track is a copy of
the input whose downloadStatus is 100 when the file at getFilePath exists and
null otherwise; id, rev and name are unchanged; and the result depends on the
filesystem only through existence at that single path (the check never reads
content, so no revision comparison is possible). -/
theorem c5_isDownloaded_frame (fsExists : Option (List Char) → Bool)
    (docDir : List Char) (track : Track) :
    (isDownloaded fsExists docDir track).id = track.id ∧
    (isDownloaded fsExists docDir track).rev = track.rev ∧
    (isDownloaded fsExists docDir track).name = track.name ∧
    (isDownloaded fsExists docDir track).downloadStatus =
      (if fsExists (getFilePath docDir (some track)) then some 100 else none) ∧
    isDownloaded fsExists docDir track =
      { track with downloadStatus :=
          if fsExists (some (docDir ++ getFileName track)) then some 100 else none } ∧
    (∀ fs2 : Option (List Char) → Bool,
      fs2 (getFilePath docDir (some track)) = fsExists (getFilePath docDir (some track)) →
      isDownloaded fs2 docDir track = isDownloaded fsExists docDir track) := by
  refine ⟨rfl, rfl, rfl, rfl, rfl, ?_⟩
  intro fs2 h
  unfold isDownloaded
  rw [h]

/-- Witness for C5 at a concrete track and all-true existence capability. -/
theorem c5_isDownloaded_frame_witness :
    (isDownloaded (fun _ => true) []
      (Track.mk "abc".data "3".data "My Song.mp3".data none)).downloadStatus = some 100 := by
  have h := (c5_isDownloaded_frame (fun _ => true) []
    (Track.mk "abc".data "3".data "My Song.mp3".data none)).2.2.2.1
  simpa using h

/-- C6 counterexample: on the remote path containing U+007F, the header built
by createDownloader escapes that codepoint (the regex range starts at 0x7f),
while the transform of the claim, which escapes only codepoints strictly above
U+007F, leaves it literal; the two values differ. -/
theorem c6_counterexample :
    (createDownloader [] [] [] ['/', Char.ofNat 127]).dropboxApiArg ≠
      headerEscapeAbove ['/', Char.ofNat 127] := by
  decide

/-- C6 amended: for every remote path of basic-plane codepoints, the
Dropbox-API-Arg value built by createDownloader equals the JSON encoding of
the path object in which every codepoint at or above U+007F is replaced by a
backslash-u escape of exactly four hex digits. -/
theorem c6_amended (docDir accessToken local_ remote : List Char)
    (hbmp : ∀ a ∈ remote, a.toNat < 65536) :
    (createDownloader docDir accessToken local_ remote).dropboxApiArg =
      headerEscapeAtOrAbove remote :=
  cleanHeader_eq_atOrAbove remote hbmp

/-- Witness for C6 amended on the path containing the non-ASCII É, checking
the concrete escaped header value. -/
theorem c6_amended_witness :
    (createDownloader [] [] [] "/É".data).dropboxApiArg =
      headerEscapeAtOrAbove "/É".data ∧
    (createDownloader [] [] [] "/É".data).dropboxApiArg =
      lbrace :: ("\"path\":\"/\\u00c9\"".data ++ [rbrace]) :=
  ⟨c6_amended [] [] [] "/É".data (by decide), by decide⟩

/-- C7: normalization rules and idempotence.  The normalizer equals the
character map sending hyphen, em-dash and space to underscore followed by a
trim of leading and trailing whitespace, and normalizing twice equals
normalizing once. -/
theorem c7_normalizer (s : List Char) :
    createValidFileURI s = jsTrim (s.map normChar) ∧
    createValidFileURI (createValidFileURI s) = createValidFileURI s :=
  ⟨createValidFileURI_eq s, createValidFileURI_idem s⟩

/-- C8 counterexample: with a delete capability failing on the lone purge
candidate p1.mix, the purge logs nothing, so the per-file deletion failure is
not logged, contrary to the claim that every such failure is logged. -/
theorem c8_counterexample :
    "p1.mix".data ∈ cleanFiles ["p1.mix".data] [] ∧
    (fun p => if p = "p1.mix".data then some "EPERM".data else none) "p1.mix".data =
      some "EPERM".data ∧
    (cleanFilesEff (fun p => if p = "p1.mix".data then some "EPERM".data else none)
      [] ["p1.mix".data] []).logged = [] := by
  decide

/-- C8 amended: purge error handling is best-effort per file in the sense that
deletion is attempted for every candidate whatever the outcomes of the other
deletions are (the attempted set is independent of the delete capability), and
no per-file failure is raised to the caller of the purge; the failures are not
logged by the purge pass. -/
theorem c8_amended (deleteFile deleteFile2 : List Char → Option (List Char))
    (docPath : List Char) (files : List (List Char)) (playlists : List Playlist) :
    (cleanFilesEff deleteFile docPath files playlists).attempts.map Prod.fst =
      (cleanFiles files playlists).map (fun f => docPath ++ f) ∧
    (cleanFilesEff deleteFile docPath files playlists).attempts.map Prod.fst =
      (cleanFilesEff deleteFile2 docPath files playlists).attempts.map Prod.fst ∧
    (cleanFilesEff deleteFile docPath files playlists).raisedToCaller = none ∧
    (cleanFilesEff deleteFile docPath files playlists).logged = [] := by
  refine ⟨?_, ?_, rfl, rfl⟩ <;> simp [cleanFilesEff]

/-- C9: the derived booleans of transformFile are computed purely from the tag
and the file-name extension; isAudioFile holds exactly when the extension is
in the fixed allow-list, isPlaylist exactly when the extension is mix, and
isFolder exactly when the tag is folder. -/
theorem c9_transformFile (file : DbxEntry) :
    ((transformFile file).isAudioFile = true ↔ getExtension file.name ∈ audioExtensions) ∧
    ((transformFile file).isPlaylist = true ↔ getExtension file.name = "mix".data) ∧
    ((transformFile file).isFolder = true ↔ file.tag = "folder".data) ∧
    (∀ g : DbxEntry, file.tag = g.tag → getExtension file.name = getExtension g.name →
      (transformFile file).isAudioFile = (transformFile g).isAudioFile ∧
      (transformFile file).isPlaylist = (transformFile g).isPlaylist ∧
      (transformFile file).isFolder = (transformFile g).isFolder) := by
  refine ⟨?_, ?_, ?_, ?_⟩
  · simp [transformFile, isAudioFile]
  · simp [transformFile, isPlaylist]
  · simp [transformFile]
  · intro g htag hext
    simp [transformFile, isAudioFile, isPlaylist, htag, hext]

/-- Witness for C9 purity at two concrete entries sharing tag and extension. -/
theorem c9_transformFile_witness :
    (transformFile (DbxEntry.mk "file".data "a.mp3".data "/a".data none)).isAudioFile =
      (transformFile (DbxEntry.mk "file".data "b.mp3".data "/b".data none)).isAudioFile :=
  ((c9_transformFile (DbxEntry.mk "file".data "a.mp3".data "/a".data none)).2.2.2
    (DbxEntry.mk "file".data "b.mp3".data "/b".data none) rfl (by decide)).1

/-- C10: getModifiedUsersFromEntries returns exactly the distinct non-empty
modified-by values: a string is in the result iff it is non-empty and some
entry carries it (entries without the optional field contribute nothing and
cause no error), the absent value is never in the result, and the result has
no duplicates. -/
theorem c10_modified_users (entries : List DbxEntry) :
    (∀ v : List Char, some v ∈ getModifiedUsersFromEntries entries ↔
      (v ≠ [] ∧ ∃ e ∈ entries, getModifiedBy e = some v)) ∧
    none ∉ getModifiedUsersFromEntries entries ∧
    (getModifiedUsersFromEntries entries).Nodup := by
  refine ⟨?_, ?_, ?_⟩
  · intro v
    unfold getModifiedUsersFromEntries
    rw [List.mem_filter, mem_setDedup, List.mem_map]
    constructor
    · rintro ⟨⟨e, he, hev⟩, hb⟩
      refine ⟨?_, e, he, hev⟩
      intro hnil
      rw [hnil] at hb
      simp [jsBoolean] at hb
    · rintro ⟨hv, e, he, hev⟩
      cases v with
      | nil => exact absurd rfl hv
      | cons c cs => exact ⟨⟨e, he, hev⟩, rfl⟩
  · intro hmem
    unfold getModifiedUsersFromEntries at hmem
    rw [List.mem_filter] at hmem
    simp [jsBoolean] at hmem
  · exact List.Nodup.filter _ (nodup_setDedup _)

end DemoTape
